import Mathlib

/-!
# TweetyPy thread-segmentation engine: a shallow embedding

This file embeds the thread-splitting core of `src/main.py`
(`digits`, `suffix_length`, `greedy_split_within_limit`,
`split_text_into_tweets`) and proves properties of it.

Conventions of the embedding:

* A Python `str` is a `List Char`.  Slicing `text[i:end]` with
  `0 ≤ i ≤ end` is `(t.drop i).take (end - i)`; all slice indices that
  actually occur in the modelled code are non-negative.
* Python whitespace (`str.isspace` / regex `\s`) is modelled on the
  ASCII whitespace characters; the unicode extras behave identically.
* The `while` loops become fuel-indexed recursions returning `Option`:
  `none` means the loop did not finish within the supplied fuel.
  Each loop makes strict cursor progress whenever its limit is
  positive, so fuel `length + 1` is enough (proved below); with a
  non-positive limit the Python loop runs forever and the embedding
  returns `none` accordingly.
* `raise ValueError` becomes the `Except.error ()` value; the sentinel
  `prev_count = -1` keeps its `Int` type.
-/

set_option autoImplicit false

namespace TweetyPy

/-- Python's whitespace test (`str.isspace` / regex `\s`), on the ASCII
whitespace characters. -/
def isspace (c : Char) : Bool :=
  c = ' ' || c = '\t' || c = '\n' || c = '\x0b' || c = '\x0c' || c = '\r'

/-- Python slice `t[a:b]` for `0 ≤ a, b` (empty when `b ≤ a`). -/
def pyslice (t : List Char) (a b : Nat) : List Char :=
  (t.drop a).take (b - a)

/-- Python `str.strip()`: drop whitespace from both ends. -/
def pystrip (t : List Char) : List Char :=
  ((t.dropWhile isspace).reverse.dropWhile isspace).reverse

/-- The cursor after the Python loop
`while i < N and text[i].isspace(): i += 1`. -/
def skipWs (t : List Char) (i : Nat) : Nat :=
  i + ((t.drop i).takeWhile isspace).length

/-- Index of the last whitespace character of `l`, if any: the value
`last_ws` computed by the `finditer` loop in `greedy_split_within_limit`
(`none` plays the role of `-1`). -/
def lastWs : List Char → Option Nat
  | [] => none
  | c :: cs =>
    match lastWs cs with
    | some j => some (j + 1)
    | none => if isspace c then some 0 else none

/-- Decimal digit characters, fuel-indexed so that the kernel can
evaluate it (`fuel = n + 1` always suffices, see `natStrAux_fuel`). -/
def natStrAux : Nat → Nat → List Char
  | 0, _ => []
  | fuel + 1, n =>
    if n < 10 then [Char.ofNat (48 + n)]
    else natStrAux fuel (n / 10) ++ [Char.ofNat (48 + n % 10)]

/-- Decimal digit characters of `n`, most significant first: Python
`str(n)` for a non-negative `n`. -/
def natStr (n : Nat) : List Char :=
  natStrAux (n + 1) n

/-- `digits(n) = len(str(abs(n)))` from `src/main.py`, for the
non-negative arguments it is applied to. -/
def digits (n : Nat) : Nat :=
  (natStr n).length

/-- `suffix_length` from `src/main.py`: length of `" i/n"` using
worst-case `i` digits equal to `digits(n_total)`. -/
def suffix_length (n_total : Nat) : Nat :=
  1 + digits n_total + 1 + digits n_total

/-- Where the candidate window ending at `min (i + limit) t.length`
is cut: at the last whitespace strictly inside the window (when the
window does not reach the end of the text and such a whitespace exists
at a positive offset), else at the window end.  The emitted chunk is
`text[i:windowEnd]` in both branches of the Python code. -/
def windowEnd (t : List Char) (limit i : Nat) : Nat :=
  if min (i + limit) t.length < t.length then
    match lastWs (pyslice t i (min (i + limit) t.length)) with
    | some j => if 0 < j then i + j else min (i + limit) t.length
    | none => min (i + limit) t.length
  else min (i + limit) t.length

/-- The body of the `while i < N` loop of `greedy_split_within_limit`,
fuel-indexed.  State: cursor `i` and accumulated `chunks`. -/
def greedyLoop (t : List Char) (limit : Nat) :
    Nat → Nat → List (List Char) → Option (List (List Char))
  | 0, _, _ => none
  | fuel + 1, i, chunks =>
    if i < t.length then
      let e := windowEnd t limit i
      let cleaned := pystrip (pyslice t i e)
      let chunks1 := if cleaned.isEmpty then chunks else chunks ++ [cleaned]
      let i1 := skipWs t e
      if i1 = e ∧ e = t.length ∧ cleaned.isEmpty then some chunks1
      else
        let i2 := if (i1 : Int) ≤ (e : Int) - (limit : Int) ∧ 0 < limit then e else i1
        greedyLoop t limit fuel i2 chunks1
    else some chunks

/-- `greedy_split_within_limit` from `src/main.py`.  Fuel
`t.length + 1` suffices whenever `0 < limit` (proved below); for
`limit = 0` and a text whose first character is not whitespace the
Python loop never advances, and the embedding returns `none`. -/
def greedy_split_within_limit (t : List Char) (limit : Nat) :
    Option (List (List Char)) :=
  greedyLoop t limit (t.length + 1) 0 []

/-- The `while start < len(c)` hard-split loop of
`split_text_into_tweets`, fuel-indexed. -/
def hardSplitLoop (c : List Char) (bl : Nat) :
    Nat → Nat → List (List Char) → Option (List (List Char))
  | 0, _, _ => none
  | fuel + 1, start, acc =>
    if start < c.length then
      hardSplitLoop c bl fuel (start + bl) (acc ++ [pyslice c start (start + bl)])
    else some acc

/-- Hard-split `c` into consecutive `bl`-sized slices. -/
def hardSplit (c : List Char) (bl : Nat) : Option (List (List Char)) :=
  hardSplitLoop c bl (c.length + 1) 0 []

/-- One chunk's contribution to `bodies` in `split_text_into_tweets`:
kept whole when within the limit, hard-split otherwise. -/
def expandChunk (bl : Nat) (c : List Char) : Option (List (List Char)) :=
  if c.length ≤ bl then some [c] else hardSplit c bl

/-- The `bodies` list built from one segmentation pass of
`split_text_into_tweets` at body limit `bl`. -/
def bodiesAt (t : List Char) (bl : Nat) : Option (List (List Char)) := do
  let cs ← greedy_split_within_limit t bl
  let pieces ← cs.mapM (expandChunk bl)
  pure pieces.flatten

/-- The `for _ in range(10)` estimation loop of
`split_text_into_tweets`.  Arguments mirror the Python state:
remaining rounds, `n_est`, `prev_count`.  Returns the final
`prev_count` (the only part of the state read after the loop), or
`Except.error ()` for the `raise ValueError`. -/
def splitLoop (t : List Char) (max_len : Int) :
    Nat → Nat → Int → Option (Except Unit Int)
  | 0, _, prev => some (.ok prev)
  | k + 1, n_est, prev =>
    let body_limit : Int := max_len - suffix_length n_est
    if body_limit ≤ 0 then some (.error ())
    else
      match bodiesAt t body_limit.toNat with
      | none => none
      | some bodies =>
        let n_new := bodies.length
        if (n_new : Int) = prev then some (.ok prev)
        else splitLoop t max_len k (max 1 n_new) n_new

/-- Python `text.replace("\r\n", "\n")`: left-to-right,
non-overlapping. -/
def replaceCRLF : List Char → List Char
  | '\r' :: '\n' :: rest => '\n' :: replaceCRLF rest
  | c :: rest => c :: replaceCRLF rest
  | [] => []

/-- The newline normalization of `split_text_into_tweets`:
`text.replace("\r\n", "\n").replace("\r", "\n")`. -/
def normalizeNewlines (t : List Char) : List Char :=
  (replaceCRLF t).map (fun c => if c = '\r' then '\n' else c)

/-- The final list comprehension of `split_text_into_tweets`:
`[f"{final_bodies[i]} {i+1}/{n_total}" for i in range(n_total)]` with
`n_total = len(final_bodies)`. -/
def assemble (bodies : List (List Char)) : List (List Char) :=
  (List.range bodies.length).map
    (fun i => bodies.getD i [] ++ ' ' :: natStr (i + 1) ++ '/' :: natStr bodies.length)

/-- `split_text_into_tweets` from `src/main.py`.

`some (.ok ts)` is a normal return, `some (.error ())` is the
`raise ValueError`, and `none` means some internal loop failed to
terminate (the final segmentation pass runs without a fresh positivity
check; a non-positive final `body_limit` makes the Python loop run
forever, and `Int.toNat` sends it to `0`, for which `greedyLoop`
exhausts its fuel on the non-empty stripped text). -/
def split_text_into_tweets (text : List Char) (max_len : Int) :
    Option (Except Unit (List (List Char))) :=
  let t := pystrip (normalizeNewlines text)
  if t.isEmpty then some (.ok [])
  else
    match splitLoop t max_len 10 9 (-1) with
    | none => none
    | some (.error e) => some (.error e)
    | some (.ok prev) =>
      let n_total := (max 1 prev).toNat
      let body_limit : Int := max_len - suffix_length n_total
      match bodiesAt t body_limit.toNat with
      | none => none
      | some final_bodies => some (.ok (assemble final_bodies))

/-- Characters that survive whitespace filtering. -/
def nonWs (c : Char) : Bool := !(isspace c)

/-- The states `(rounds left, n_est, prev_count)` that the estimation
loop of `split_text_into_tweets` actually passes through on the
(normalized, stripped) text `t` with the given `max_len`. -/
inductive Reach (t : List Char) (max_len : Int) : Nat → Nat → Int → Prop where
  | init : Reach t max_len 10 9 (-1)
  | step {k : Nat} {n : Nat} {p : Int} {bodies : List (List Char)} :
      Reach t max_len (k + 1) n p →
      ¬ (max_len - (suffix_length n : Int) ≤ 0) →
      bodiesAt t (max_len - (suffix_length n : Int)).toNat = some bodies →
      (bodies.length : Int) ≠ p →
      Reach t max_len k (max 1 bodies.length) bodies.length

/-- Some iteration of the estimation loop computes a non-positive
`body_limit` (and therefore raises the configuration error). -/
def hitsConfigError (t : List Char) (max_len : Int) : Prop :=
  ∃ k n p, Reach t max_len (k + 1) n p ∧ max_len - (suffix_length n : Int) ≤ 0

/-! ## Basic lemmas about the character-level helpers -/

theorem pyslice_length_le (t : List Char) (a b : Nat) :
    (pyslice t a b).length ≤ b - a := by
  simp only [pyslice, List.length_take]
  omega

theorem pyslice_append_drop (t : List Char) {a b : Nat} (h : a ≤ b) :
    pyslice t a b ++ t.drop b = t.drop a := by
  have h2 := List.take_append_drop (b - a) (t.drop a)
  rw [List.drop_drop] at h2
  have hab : a + (b - a) = b := by omega
  rw [hab] at h2
  exact h2

theorem filter_dropWhile_isspace (l : List Char) :
    (l.dropWhile isspace).filter nonWs = l.filter nonWs := by
  induction l with
  | nil => rfl
  | cons c cs ih =>
    by_cases h : isspace c
    · simp [List.dropWhile_cons, h, ih, List.filter_cons, nonWs]
    · simp [List.dropWhile_cons, h]

theorem filter_pystrip (l : List Char) :
    (pystrip l).filter nonWs = l.filter nonWs := by
  unfold pystrip
  rw [List.filter_reverse, filter_dropWhile_isspace, List.filter_reverse,
    List.reverse_reverse, filter_dropWhile_isspace]

theorem filter_eq_nil_of_pystrip_eq_nil {l : List Char} (h : pystrip l = []) :
    l.filter nonWs = [] := by
  rw [← filter_pystrip, h]
  rfl

theorem pystrip_length_le (l : List Char) : (pystrip l).length ≤ l.length := by
  unfold pystrip
  calc ((l.dropWhile isspace).reverse.dropWhile isspace).reverse.length
      = ((l.dropWhile isspace).reverse.dropWhile isspace).length := by
        rw [List.length_reverse]
    _ ≤ (l.dropWhile isspace).reverse.length :=
        (List.dropWhile_sublist isspace).length_le
    _ = (l.dropWhile isspace).length := by rw [List.length_reverse]
    _ ≤ l.length := (List.dropWhile_sublist isspace).length_le

theorem head_dropWhile_isspace {l : List Char} {c : Char} {cs : List Char}
    (h : l.dropWhile isspace = c :: cs) : isspace c = false := by
  induction l with
  | nil => simp at h
  | cons a as ih =>
    rw [List.dropWhile_cons] at h
    cases ha : isspace a with
    | true => exact ih (by simpa [ha] using h)
    | false =>
      rw [if_neg (by simp [ha])] at h
      obtain ⟨rfl, -⟩ := List.cons.inj h
      exact ha

theorem rstrip_head {X : List Char} {c : Char} {cs : List Char}
    (h : (X.reverse.dropWhile isspace).reverse = c :: cs) :
    ∃ ds, X = c :: ds := by
  obtain ⟨pre, hpre⟩ : ∃ pre, pre ++ X.reverse.dropWhile isspace = X.reverse :=
    ⟨X.reverse.takeWhile isspace, List.takeWhile_append_dropWhile isspace X.reverse⟩
  have h2 := congrArg List.reverse hpre
  rw [List.reverse_append, List.reverse_reverse, h] at h2
  exact ⟨cs ++ pre.reverse, by simp [← h2]⟩

theorem pystrip_head_not_isspace {l : List Char} {c : Char} {cs : List Char}
    (h : pystrip l = c :: cs) : isspace c = false := by
  unfold pystrip at h
  obtain ⟨ds, hds⟩ := rstrip_head h
  exact head_dropWhile_isspace hds

theorem pystrip_ne_nil {c : Char} {l : List Char} (h : isspace c = false) :
    pystrip (c :: l) ≠ [] := by
  intro hnil
  have h2 := filter_eq_nil_of_pystrip_eq_nil hnil
  rw [List.filter_cons] at h2
  simp [nonWs, h] at h2

/-! ## Basic lemmas about `skipWs`, `lastWs`, `windowEnd` -/

theorem le_skipWs (t : List Char) (i : Nat) : i ≤ skipWs t i :=
  Nat.le_add_right _ _

theorem skipWs_le_length {t : List Char} {i : Nat} (h : i ≤ t.length) :
    skipWs t i ≤ t.length := by
  have h2 : ((t.drop i).takeWhile isspace).length ≤ (t.drop i).length :=
    (List.takeWhile_sublist isspace).length_le
  rw [List.length_drop] at h2
  unfold skipWs
  omega

theorem dropWhile_eq_drop_len (p : Char → Bool) (l : List Char) :
    l.dropWhile p = l.drop (l.takeWhile p).length := by
  induction l with
  | nil => rfl
  | cons a as ih =>
    by_cases h : p a
    · simp [List.dropWhile_cons, List.takeWhile_cons, h, ih]
    · simp [List.dropWhile_cons, List.takeWhile_cons, h]

theorem drop_skipWs (t : List Char) (i : Nat) :
    t.drop (skipWs t i) = (t.drop i).dropWhile isspace := by
  unfold skipWs
  rw [← List.drop_drop, ← dropWhile_eq_drop_len]

theorem filter_drop_skipWs (t : List Char) (i : Nat) :
    (t.drop (skipWs t i)).filter nonWs = (t.drop i).filter nonWs := by
  rw [drop_skipWs, filter_dropWhile_isspace]

theorem skipWs_eq_self_of_head {t : List Char} {i : Nat} {c : Char}
    {rest : List Char} (ht : t.drop i = c :: rest) (hc : isspace c = false) :
    skipWs t i = i := by
  simp [skipWs, ht, List.takeWhile_cons, hc]

theorem skipWs_eq_self_of_nil {t : List Char} {i : Nat}
    (ht : t.drop i = []) : skipWs t i = i := by
  simp [skipWs, ht]

theorem lastWs_lt_length {l : List Char} {j : Nat} (h : lastWs l = some j) :
    j < l.length := by
  induction l generalizing j with
  | nil => simp [lastWs] at h
  | cons c cs ih =>
    rw [lastWs] at h
    cases hcs : lastWs cs with
    | some j' =>
      rw [hcs] at h
      obtain rfl : j' + 1 = j := Option.some.inj h
      have := ih hcs
      simp only [List.length_cons]
      omega
    | none =>
      rw [hcs] at h
      by_cases hc : isspace c
      · simp only [hc, if_pos] at h
        obtain rfl : 0 = j := Option.some.inj h
        simp
      · simp [hc] at h

theorem lastWs_eq_none {l : List Char} (h : ∀ c ∈ l, isspace c = false) :
    lastWs l = none := by
  induction l with
  | nil => rfl
  | cons c cs ih =>
    rw [lastWs, ih (fun d hd => h d (List.mem_cons_of_mem _ hd))]
    simp [h c (List.mem_cons_self c cs)]

theorem lt_windowEnd {t : List Char} {limit i : Nat} (hl : 0 < limit)
    (hi : i < t.length) : i < windowEnd t limit i := by
  unfold windowEnd
  have hmin : i < min (i + limit) t.length := by omega
  split
  · cases h : lastWs (pyslice t i (min (i + limit) t.length)) with
    | some j =>
      simp only
      split
      · omega
      · exact hmin
    | none => exact hmin
  · exact hmin

theorem windowEnd_le_length {t : List Char} {limit i : Nat}
    (hi : i < t.length) : windowEnd t limit i ≤ t.length := by
  unfold windowEnd
  have hmin : min (i + limit) t.length ≤ t.length := Nat.min_le_right _ _
  split
  · cases h : lastWs (pyslice t i (min (i + limit) t.length)) with
    | some j =>
      have hj := lastWs_lt_length h
      have hlen := pyslice_length_le t i (min (i + limit) t.length)
      simp only
      split
      · omega
      · exact hmin
    | none => exact hmin
  · exact hmin

theorem windowEnd_le_add {t : List Char} (limit i : Nat) :
    windowEnd t limit i ≤ i + limit := by
  unfold windowEnd
  have hmin : min (i + limit) t.length ≤ i + limit := Nat.min_le_left _ _
  split
  · cases h : lastWs (pyslice t i (min (i + limit) t.length)) with
    | some j =>
      have hj := lastWs_lt_length h
      have hlen := pyslice_length_le t i (min (i + limit) t.length)
      simp only
      split
      · omega
      · exact hmin
    | none => exact hmin
  · exact hmin

/-! ## Execution lemmas for `greedyLoop` -/

theorem greedy_guard_eq {limit e i1 : Nat} (hl : 0 < limit) (h : e ≤ i1) :
    (if (i1 : Int) ≤ (e : Int) - (limit : Int) ∧ 0 < limit then e else i1) = i1 := by
  rw [if_neg]
  rintro ⟨h1, -⟩
  omega

theorem greedyLoop_isSome {t : List Char} {limit : Nat} (hl : 0 < limit) :
    ∀ fuel i chunks, i ≤ t.length → t.length + 1 ≤ fuel + i →
      (greedyLoop t limit fuel i chunks).isSome = true := by
  intro fuel
  induction fuel with
  | zero =>
    intro i chunks hle hfuel
    omega
  | succ f ih =>
    intro i chunks hle hfuel
    simp only [greedyLoop]
    by_cases hi : i < t.length
    · rw [if_pos hi]
      have hie : i < windowEnd t limit i := lt_windowEnd hl hi
      have hele : windowEnd t limit i ≤ t.length := windowEnd_le_length hi
      have hi1e : windowEnd t limit i ≤ skipWs t (windowEnd t limit i) :=
        le_skipWs t _
      have hi1len : skipWs t (windowEnd t limit i) ≤ t.length :=
        skipWs_le_length hele
      rw [greedy_guard_eq hl hi1e]
      split
      · rfl
      · exact ih _ _ hi1len (by omega)
    · rw [if_neg hi]
      rfl

theorem greedyLoop_chunks {t : List Char} {limit : Nat} (hl : 0 < limit) :
    ∀ fuel i chunks cs,
      greedyLoop t limit fuel i chunks = some cs →
      (∀ c ∈ chunks, c.length ≤ limit ∧ c ≠ []) →
      ∀ c ∈ cs, c.length ≤ limit ∧ c ≠ [] := by
  intro fuel
  induction fuel with
  | zero =>
    intro i chunks cs h
    simp [greedyLoop] at h
  | succ f ih =>
    intro i chunks cs h hacc
    simp only [greedyLoop] at h
    by_cases hi : i < t.length
    · rw [if_pos hi] at h
      have hie : i < windowEnd t limit i := lt_windowEnd hl hi
      have hlim : (pystrip (pyslice t i (windowEnd t limit i))).length ≤ limit := by
        have h1 := pystrip_length_le (pyslice t i (windowEnd t limit i))
        have h2 := pyslice_length_le t i (windowEnd t limit i)
        have h3 := windowEnd_le_add (t := t) limit i
        omega
      have hacc1 :
          ∀ c ∈ (if (pystrip (pyslice t i (windowEnd t limit i))).isEmpty
              then chunks
              else chunks ++ [pystrip (pyslice t i (windowEnd t limit i))]),
            c.length ≤ limit ∧ c ≠ [] := by
        split
        · exact hacc
        · intro c hc
          rcases List.mem_append.mp hc with hc1 | hc2
          · exact hacc c hc1
          · rw [List.mem_singleton.mp hc2]
            refine ⟨hlim, ?_⟩
            intro hnil
            simp [hnil] at *
      rw [greedy_guard_eq hl (le_skipWs t _)] at h
      split at h
      · obtain rfl := Option.some.inj h
        exact hacc1
      · exact ih _ _ _ h hacc1
    · rw [if_neg hi] at h
      obtain rfl := Option.some.inj h
      exact hacc

theorem greedyLoop_filter {t : List Char} {limit : Nat} (hl : 0 < limit) :
    ∀ fuel i chunks cs,
      greedyLoop t limit fuel i chunks = some cs →
      cs.flatten.filter nonWs
        = chunks.flatten.filter nonWs ++ (t.drop i).filter nonWs := by
  intro fuel
  induction fuel with
  | zero =>
    intro i chunks cs h
    simp [greedyLoop] at h
  | succ f ih =>
    intro i chunks cs h
    simp only [greedyLoop] at h
    by_cases hi : i < t.length
    · rw [if_pos hi] at h
      have hie : i < windowEnd t limit i := lt_windowEnd hl hi
      rw [greedy_guard_eq hl (le_skipWs t _)] at h
      have hkey : (t.drop i).filter nonWs
          = (pystrip (pyslice t i (windowEnd t limit i))).filter nonWs
            ++ (t.drop (skipWs t (windowEnd t limit i))).filter nonWs := by
        rw [filter_pystrip, filter_drop_skipWs, ← List.filter_append,
          pyslice_append_drop t (le_of_lt hie)]
      have hch1 :
          (if (pystrip (pyslice t i (windowEnd t limit i))).isEmpty
              then chunks
              else chunks ++ [pystrip (pyslice t i (windowEnd t limit i))]).flatten.filter nonWs
            = chunks.flatten.filter nonWs
              ++ (pystrip (pyslice t i (windowEnd t limit i))).filter nonWs := by
        split
        · next hemp =>
          have hnil : pystrip (pyslice t i (windowEnd t limit i)) = [] :=
            List.isEmpty_iff.mp hemp
          simp [hnil]
        · rw [List.flatten_concat, List.filter_append]
      split at h
      · next hbrk =>
        obtain ⟨h1, h2, h3⟩ := hbrk
        obtain rfl := Option.some.inj h
        have hnil : pystrip (pyslice t i (windowEnd t limit i)) = [] :=
          List.isEmpty_iff.mp h3
        rw [hch1, hkey, hnil]
        rw [h1, h2]
        simp
      · rw [ih _ _ _ h, hch1, List.append_assoc, ← hkey]
    · rw [if_neg hi] at h
      obtain rfl := Option.some.inj h
      have hdrop : t.drop i = [] := List.drop_eq_nil_of_le (by omega)
      simp [hdrop]

/-! ## `greedy_split_within_limit` and `bodiesAt` -/

theorem greedy_isSome {t : List Char} {limit : Nat} (hl : 0 < limit) :
    (greedy_split_within_limit t limit).isSome = true :=
  greedyLoop_isSome hl (t.length + 1) 0 [] (Nat.zero_le _) (by omega)

theorem greedy_chunk_facts {t : List Char} {limit : Nat}
    {cs : List (List Char)} (hl : 0 < limit)
    (h : greedy_split_within_limit t limit = some cs) :
    ∀ c ∈ cs, c.length ≤ limit ∧ c ≠ [] :=
  greedyLoop_chunks hl (t.length + 1) 0 [] cs h (by simp)

theorem greedy_filter {t : List Char} {limit : Nat} {cs : List (List Char)}
    (hl : 0 < limit) (h : greedy_split_within_limit t limit = some cs) :
    cs.flatten.filter nonWs = t.filter nonWs := by
  have h2 := greedyLoop_filter hl (t.length + 1) 0 [] cs h
  simpa using h2

theorem mapM_expand_of_le {bl : Nat} :
    ∀ cs : List (List Char), (∀ c ∈ cs, c.length ≤ bl) →
      cs.mapM (expandChunk bl) = some (cs.map (fun c => [c])) := by
  intro cs
  induction cs with
  | nil => intro _; rfl
  | cons c cs ih =>
    intro h
    rw [List.mapM_cons, expandChunk, if_pos (h c (List.mem_cons_self c cs)),
      ih (fun d hd => h d (List.mem_cons_of_mem _ hd))]
    rfl

theorem flatten_map_singleton (cs : List (List Char)) :
    (cs.map (fun c => [c])).flatten = cs := by
  induction cs with
  | nil => rfl
  | cons c cs ih => simp [ih]

/-- With a positive body limit every greedy chunk already fits, so the
hard-split fallback contributes nothing and `bodies` is exactly the
greedy chunk list. -/
theorem bodiesAt_eq_greedy {t : List Char} {limit : Nat} (hl : 0 < limit) :
    bodiesAt t limit = greedy_split_within_limit t limit := by
  unfold bodiesAt
  cases hg : greedy_split_within_limit t limit with
  | none => rfl
  | some cs =>
    have hc := greedy_chunk_facts hl hg
    show (cs.mapM (expandChunk limit) >>= fun pieces => pure pieces.flatten)
        = some cs
    rw [mapM_expand_of_le cs (fun c hc' => (hc c hc').1)]
    show some (cs.map fun c => [c]).flatten = some cs
    rw [flatten_map_singleton]

theorem bodiesAt_isSome {t : List Char} {limit : Nat} (hl : 0 < limit) :
    (bodiesAt t limit).isSome = true := by
  rw [bodiesAt_eq_greedy hl]
  exact greedy_isSome hl

theorem bodiesAt_filter {t : List Char} {limit : Nat} {bs : List (List Char)}
    (hl : 0 < limit) (h : bodiesAt t limit = some bs) :
    bs.flatten.filter nonWs = t.filter nonWs := by
  rw [bodiesAt_eq_greedy hl] at h
  exact greedy_filter hl h

/-! ## Execution lemmas for `splitLoop` -/

theorem splitLoop_succ_err {t : List Char} {M : Int} {k : Nat} {n : Nat}
    {p : Int} (hbl : M - (suffix_length n : Int) ≤ 0) :
    splitLoop t M (k + 1) n p = some (.error ()) := by
  simp only [splitLoop]
  rw [if_pos hbl]

theorem splitLoop_succ_some {t : List Char} {M : Int} {k : Nat} {n : Nat}
    {p : Int} {bodies : List (List Char)}
    (hbl : ¬ M - (suffix_length n : Int) ≤ 0)
    (hb : bodiesAt t (M - (suffix_length n : Int)).toNat = some bodies) :
    splitLoop t M (k + 1) n p =
      if (bodies.length : Int) = p then some (.ok p)
      else splitLoop t M k (max 1 bodies.length) bodies.length := by
  simp only [splitLoop]
  rw [if_neg hbl, hb]

theorem splitLoop_isSome (t : List Char) (M : Int) :
    ∀ k n p, (splitLoop t M k n p).isSome = true := by
  intro k
  induction k with
  | zero => intro n p; rfl
  | succ k ih =>
    intro n p
    by_cases hbl : M - (suffix_length n : Int) ≤ 0
    · rw [splitLoop_succ_err hbl]
      rfl
    · have hpos : 0 < (M - (suffix_length n : Int)).toNat := by omega
      cases hb : bodiesAt t (M - (suffix_length n : Int)).toNat with
      | none =>
        have h2 := bodiesAt_isSome (t := t) hpos
        rw [hb] at h2
        simp at h2
      | some bodies =>
        rw [splitLoop_succ_some hbl hb]
        by_cases hne : (bodies.length : Int) = p
        · rw [if_pos hne]
          rfl
        · rw [if_neg hne]
          exact ih _ _

theorem splitLoop_reach_run {t : List Char} {M : Int} :
    ∀ {k n p}, Reach t M k n p →
      splitLoop t M 10 9 (-1) = splitLoop t M k n p := by
  intro k n p h
  induction h with
  | init => rfl
  | @step k n p bodies hR hbl hb hne ih =>
    rw [ih, splitLoop_succ_some hbl hb, if_neg hne]

theorem splitLoop_error_hits {t : List Char} {M : Int} :
    ∀ k n p, Reach t M k n p → splitLoop t M k n p = some (.error ()) →
      hitsConfigError t M := by
  intro k
  induction k with
  | zero =>
    intro n p _ h
    simp [splitLoop] at h
  | succ k ih =>
    intro n p hR h
    by_cases hbl : M - (suffix_length n : Int) ≤ 0
    · exact ⟨k, n, p, hR, hbl⟩
    · have hpos : 0 < (M - (suffix_length n : Int)).toNat := by omega
      cases hb : bodiesAt t (M - (suffix_length n : Int)).toNat with
      | none =>
        have h2 := bodiesAt_isSome (t := t) hpos
        rw [hb] at h2
        simp at h2
      | some bodies =>
        rw [splitLoop_succ_some hbl hb] at h
        by_cases hne : (bodies.length : Int) = p
        · rw [if_pos hne] at h
          simp at h
        · rw [if_neg hne] at h
          exact ih _ _ (Reach.step hR hbl hb hne) h

theorem hits_error {t : List Char} {M : Int} (h : hitsConfigError t M) :
    splitLoop t M 10 9 (-1) = some (.error ()) := by
  obtain ⟨k, n, p, hR, hbl⟩ := h
  rw [splitLoop_reach_run hR]
  exact splitLoop_succ_err hbl

/-! ## Unfolding lemmas for `split_text_into_tweets` -/

theorem split_eq_of_empty {text : List Char} {M : Int}
    (hemp : pystrip (normalizeNewlines text) = []) :
    split_text_into_tweets text M = some (.ok []) := by
  simp only [split_text_into_tweets]
  rw [if_pos (List.isEmpty_iff.mpr hemp)]

theorem split_eq_of_err {text : List Char} {M : Int} {e : Unit}
    (hemp : ¬ (pystrip (normalizeNewlines text)).isEmpty = true)
    (hsl : splitLoop (pystrip (normalizeNewlines text)) M 10 9 (-1)
      = some (.error e)) :
    split_text_into_tweets text M = some (.error e) := by
  simp only [split_text_into_tweets]
  rw [if_neg hemp, hsl]

theorem split_eq_of_ok {text : List Char} {M : Int} {prev : Int}
    (hemp : ¬ (pystrip (normalizeNewlines text)).isEmpty = true)
    (hsl : splitLoop (pystrip (normalizeNewlines text)) M 10 9 (-1)
      = some (.ok prev)) :
    split_text_into_tweets text M =
      match bodiesAt (pystrip (normalizeNewlines text))
          (M - (suffix_length (max 1 prev).toNat : Int)).toNat with
      | none => none
      | some final_bodies => some (.ok (assemble final_bodies)) := by
  simp only [split_text_into_tweets]
  rw [if_neg hemp, hsl]

theorem split_eq_of_none {text : List Char} {M : Int}
    (hemp : ¬ (pystrip (normalizeNewlines text)).isEmpty = true)
    (hsl : splitLoop (pystrip (normalizeNewlines text)) M 10 9 (-1) = none) :
    split_text_into_tweets text M = none := by
  simp only [split_text_into_tweets]
  rw [if_neg hemp, hsl]

/-- `split_text_into_tweets` raises exactly when the estimation loop
computes a non-positive body limit on a non-empty normalized text. -/
theorem split_error_iff (text : List Char) (M : Int) :
    split_text_into_tweets text M = some (.error ()) ↔
      (pystrip (normalizeNewlines text) ≠ [] ∧
        hitsConfigError (pystrip (normalizeNewlines text)) M) := by
  by_cases hemp : (pystrip (normalizeNewlines text)).isEmpty
  · have hnil : pystrip (normalizeNewlines text) = [] := List.isEmpty_iff.mp hemp
    rw [split_eq_of_empty hnil]
    simp [hnil]
  · have hne : pystrip (normalizeNewlines text) ≠ [] := by
      intro h2
      exact hemp (List.isEmpty_iff.mpr h2)
    constructor
    · intro h
      refine ⟨hne, ?_⟩
      cases hsl : splitLoop (pystrip (normalizeNewlines text)) M 10 9 (-1) with
      | none =>
        rw [split_eq_of_none hemp hsl] at h
        simp at h
      | some r =>
        cases r with
        | error e =>
          exact splitLoop_error_hits 10 9 (-1) Reach.init (by rw [hsl])
        | ok prev =>
          rw [split_eq_of_ok hemp hsl] at h
          cases hb : bodiesAt (pystrip (normalizeNewlines text))
              (M - (suffix_length (max 1 prev).toNat : Int)).toNat with
          | none =>
            rw [hb] at h
            simp at h
          | some final_bodies =>
            rw [hb] at h
            simp at h
    · rintro ⟨-, hhits⟩
      exact split_eq_of_err hemp (hits_error hhits)

/-! ## Divergence of the greedy loop at limit 0

With `limit = 0` and a text whose first character is not whitespace the
Python `while` loop never advances its cursor; correspondingly the
embedding runs out of fuel no matter how much it is given. -/

theorem greedyLoop_zero_stuck {t : List Char} {c : Char} {rest : List Char}
    (ht : t = c :: rest) (hc : isspace c = false) :
    ∀ fuel chunks, greedyLoop t 0 fuel 0 chunks = none := by
  have hlen : 0 < t.length := by rw [ht]; simp
  have hsl : pyslice t 0 0 = [] := by simp [pyslice]
  have he : windowEnd t 0 0 = 0 := by
    unfold windowEnd
    have h0 : min (0 + 0) t.length = 0 := by omega
    rw [h0, if_pos hlen, hsl]
    rfl
  have hsl0 : pystrip (pyslice t 0 0) = [] := by rw [hsl]; rfl
  have hskip : skipWs t 0 = 0 := by
    have hdrop : t.drop 0 = c :: rest := by simpa using ht
    exact skipWs_eq_self_of_head hdrop hc
  intro fuel
  induction fuel with
  | zero => intro chunks; rfl
  | succ f ih =>
    intro chunks
    simp only [greedyLoop]
    rw [if_pos hlen, he, hsl0, hskip]
    split
    · next hbrk =>
      exact absurd hbrk.2.1.symm (by omega)
    · next =>
      split
      · next hg => exact absurd hg.2 (by omega)
      · next =>
        show greedyLoop t 0 f 0 chunks = none
        exact ih chunks

theorem bodiesAt_zero_none {t : List Char} {c : Char} {rest : List Char}
    (ht : t = c :: rest) (hc : isspace c = false) : bodiesAt t 0 = none := by
  have h1 : greedy_split_within_limit t 0 = none := greedyLoop_zero_stuck ht hc _ _
  unfold bodiesAt
  rw [h1]
  rfl

/-! ## Whitespace filtering is invariant under newline normalization -/

theorem filter_replaceCRLF (l : List Char) :
    (replaceCRLF l).filter nonWs = l.filter nonWs := by
  have hr : nonWs '\r' = false := by decide
  have hn : nonWs '\n' = false := by decide
  induction l using replaceCRLF.induct with
  | case1 rest ih => simp [replaceCRLF, List.filter_cons, hr, hn, ih]
  | case2 c rest hne ih => simp [replaceCRLF, List.filter_cons, ih]
  | case3 => rfl

theorem filter_normalizeNewlines (l : List Char) :
    (normalizeNewlines l).filter nonWs = l.filter nonWs := by
  have hr : nonWs '\r' = false := by decide
  have hn : nonWs '\n' = false := by decide
  unfold normalizeNewlines
  rw [← filter_replaceCRLF l]
  generalize replaceCRLF l = m
  induction m with
  | nil => rfl
  | cons c cs ih =>
    by_cases h : c = '\r'
    · subst h
      simp [List.filter_cons, hr, hn, ih]
    · simp [List.filter_cons, h, ih]

/-! ## The assembled output -/

theorem assemble_length (bs : List (List Char)) :
    (assemble bs).length = bs.length := by
  simp [assemble]

theorem assemble_get (bs : List (List Char)) (i : Nat)
    (h : i < (assemble bs).length) :
    (assemble bs).get ⟨i, h⟩
      = bs.getD i [] ++ ' ' :: natStr (i + 1) ++ '/' :: natStr bs.length := by
  have h2 : i < bs.length := by
    have := assemble_length bs
    omega
  simp [assemble, List.get_eq_getElem]

/-- Structure of every successful return: the tweets are assembled from
a body list whose non-whitespace content is exactly that of the raw
input text. -/
theorem split_ok_exists_bodies {text : List Char} {M : Int}
    {ts : List (List Char)}
    (h : split_text_into_tweets text M = some (.ok ts)) :
    ∃ bs, ts = assemble bs ∧ bs.flatten.filter nonWs = text.filter nonWs := by
  by_cases hemp : (pystrip (normalizeNewlines text)).isEmpty
  · have hnil := List.isEmpty_iff.mp hemp
    rw [split_eq_of_empty hnil] at h
    obtain rfl : ([] : List (List Char)) = ts := by simpa using h
    refine ⟨[], rfl, ?_⟩
    have h2 : (normalizeNewlines text).filter nonWs = [] :=
      filter_eq_nil_of_pystrip_eq_nil hnil
    have h3 : text.filter nonWs = [] := by
      rw [← filter_normalizeNewlines]
      exact h2
    simp [h3]
  · cases hsl : splitLoop (pystrip (normalizeNewlines text)) M 10 9 (-1) with
    | none =>
      rw [split_eq_of_none hemp hsl] at h
      simp at h
    | some r =>
      cases r with
      | error e =>
        rw [split_eq_of_err hemp hsl] at h
        simp at h
      | ok prev =>
        rw [split_eq_of_ok hemp hsl] at h
        cases hb : bodiesAt (pystrip (normalizeNewlines text))
            (M - (suffix_length (max 1 prev).toNat : Int)).toNat with
        | none =>
          rw [hb] at h
          simp at h
        | some fb =>
          rw [hb] at h
          obtain rfl : assemble fb = ts := by simpa using h
          refine ⟨fb, rfl, ?_⟩
          have hne : pystrip (normalizeNewlines text) ≠ [] := fun h2 =>
            hemp (List.isEmpty_iff.mpr h2)
          obtain ⟨c, rest, ht⟩ : ∃ c rest,
              pystrip (normalizeNewlines text) = c :: rest := by
            cases hx : pystrip (normalizeNewlines text) with
            | nil => exact absurd hx hne
            | cons c rest => exact ⟨c, rest, rfl⟩
          have hhd : isspace c = false := pystrip_head_not_isspace ht
          by_cases hpos :
              0 < (M - (suffix_length (max 1 prev).toNat : Int)).toNat
          · have hf := bodiesAt_filter hpos hb
            rw [hf, filter_pystrip, filter_normalizeNewlines]
          · have h0 : (M - (suffix_length (max 1 prev).toNat : Int)).toNat = 0 := by
              omega
            rw [h0, bodiesAt_zero_none ht hhd] at hb
            simp at hb

/-! ## Decimal representation lemmas -/

theorem natStrAux_congr : ∀ n f1 f2, n < f1 → n < f2 →
    natStrAux f1 n = natStrAux f2 n := by
  intro n
  induction n using Nat.strong_induction_on with
  | _ n ih =>
    intro f1 f2 h1 h2
    match f1, h1 with
    | a + 1, h1 =>
      match f2, h2 with
      | b + 1, h2 =>
        simp only [natStrAux]
        by_cases h10 : n < 10
        · rw [if_pos h10, if_pos h10]
        · rw [if_neg h10, if_neg h10]
          have hdiv : n / 10 < n := Nat.div_lt_self (by omega) (by omega)
          rw [ih (n / 10) hdiv a (b + 1) (by omega) (by omega),
            ih (n / 10) hdiv (b + 1) b (by omega) (by omega)]

theorem natStr_unfold (n : Nat) :
    natStr n = if n < 10 then [Char.ofNat (48 + n)]
      else natStr (n / 10) ++ [Char.ofNat (48 + n % 10)] := by
  by_cases h10 : n < 10
  · rw [if_pos h10]
    unfold natStr
    rw [natStrAux, if_pos h10]
  · rw [if_neg h10]
    unfold natStr
    rw [natStrAux, if_neg h10]
    have hdiv : n / 10 < n := Nat.div_lt_self (by omega) (by omega)
    rw [natStrAux_congr (n / 10) n (n / 10 + 1) hdiv (by omega)]

theorem digits_pos (n : Nat) : 1 ≤ digits n := by
  unfold digits
  rw [natStr_unfold]
  split
  · simp
  · simp

theorem digits_lt_ten {n : Nat} (h : n < 10) : digits n = 1 := by
  unfold digits
  rw [natStr_unfold, if_pos h]
  rfl

theorem digits_ge_ten {n : Nat} (h : ¬ n < 10) :
    digits n = digits (n / 10) + 1 := by
  unfold digits
  rw [natStr_unfold, if_neg h]
  simp [digits]

theorem digits_mono : ∀ n m, m ≤ n → digits m ≤ digits n := by
  intro n
  induction n using Nat.strong_induction_on with
  | _ n ih =>
    intro m hmn
    by_cases hm : m < 10
    · rw [digits_lt_ten hm]
      exact digits_pos n
    · have hn : ¬ n < 10 := by omega
      rw [digits_ge_ten hm, digits_ge_ten hn]
      have h2 := ih (n / 10) (Nat.div_lt_self (by omega) (by omega)) (m / 10)
        (Nat.div_le_div_right hmn)
      omega

theorem suffix_length_eq (n : Nat) : suffix_length n = 2 + 2 * digits n := by
  unfold suffix_length
  omega

/-! ## Claim theorems -/

/-- C10: for every text and every positive limit, every chunk emitted
by `greedy_split_within_limit` has length at most `limit`; consequently
the hard-split else-branch of `split_text_into_tweets` is unreachable
at a positive body limit — the `bodies` list is exactly the greedy
chunk list. -/
theorem claim_C10 (t : List Char) (limit : Nat) (cs : List (List Char))
    (hl : 0 < limit) (h : greedy_split_within_limit t limit = some cs) :
    (∀ c ∈ cs, c.length ≤ limit) ∧ bodiesAt t limit = some cs := by
  refine ⟨fun c hc => (greedy_chunk_facts hl h c hc).1, ?_⟩
  rw [bodiesAt_eq_greedy hl, h]

theorem claim_C10_witness :
    (∀ c ∈ ["aa".data, "bb".data, "cc".data], c.length ≤ 3) ∧
      bodiesAt "aa bb cc".data 3 = some ["aa".data, "bb".data, "cc".data] :=
  claim_C10 "aa bb cc".data 3 ["aa".data, "bb".data, "cc".data]
    (by decide) rfl

/-- C6: for every text and positive limit, concatenating the chunks of
`greedy_split_within_limit` (the whitespace between them having been
discarded) reconstructs exactly the non-whitespace characters of the
input in order; and the bodies of every successful
`split_text_into_tweets` run preserve this order as well. -/
theorem claim_C6 :
    (∀ (t : List Char) (limit : Nat) (cs : List (List Char)), 0 < limit →
        greedy_split_within_limit t limit = some cs →
        cs.flatten.filter nonWs = t.filter nonWs) ∧
    (∀ (text : List Char) (M : Int) (ts : List (List Char)),
        split_text_into_tweets text M = some (.ok ts) →
        ∃ bs, ts = assemble bs ∧
          bs.flatten.filter nonWs = text.filter nonWs) :=
  ⟨fun _ _ _ hl h => greedy_filter hl h,
   fun _ _ _ h => split_ok_exists_bodies h⟩

theorem claim_C6_witness :
    (["aa".data, "bb".data, "cc".data].flatten.filter nonWs
        = "aa bb cc".data.filter nonWs) ∧
    (∃ bs, ["Hello world 1/1".data] = assemble bs ∧
        bs.flatten.filter nonWs = "Hello world".data.filter nonWs) :=
  ⟨claim_C6.1 "aa bb cc".data 3 ["aa".data, "bb".data, "cc".data]
      (by decide) rfl,
   claim_C6.2 "Hello world".data 280 ["Hello world 1/1".data] rfl⟩

/-- C2: on every non-empty successful result of length `N`, the `i`-th
element (0-based here) is exactly a body followed by the suffix
`" (i+1)/N"`, with `N` the actual length of the returned sequence, so
the positional indices run from 1 to N with no gaps or repeats and the
same `N` in every suffix. -/
theorem claim_C2 (text : List Char) (M : Int) (ts : List (List Char))
    (h : split_text_into_tweets text M = some (.ok ts))
    (i : Nat) (hi : i < ts.length) :
    ∃ b, ts.get ⟨i, hi⟩
      = b ++ ' ' :: natStr (i + 1) ++ '/' :: natStr ts.length := by
  obtain ⟨bs, rfl, -⟩ := split_ok_exists_bodies h
  refine ⟨bs.getD i [], ?_⟩
  rw [assemble_get bs i hi, assemble_length]

theorem claim_C2_witness :
    ∃ b, (["Hello world 1/1".data] : List (List Char)).get ⟨0, by decide⟩
      = b ++ ' ' :: natStr (0 + 1)
        ++ '/' :: natStr (["Hello world 1/1".data] : List (List Char)).length :=
  claim_C2 "Hello world".data 280 ["Hello world 1/1".data] rfl 0 (by decide)

/-- C9: whenever the input text normalizes and strips to the empty
string, `split_text_into_tweets` returns the empty sequence and does
not raise, for every `max_len` (positive or not — the early return
happens before `max_len` is ever read). -/
theorem claim_C9 (text : List Char) (M : Int)
    (h : pystrip (normalizeNewlines text) = []) :
    split_text_into_tweets text M = some (.ok []) :=
  split_eq_of_empty h

theorem claim_C9_witness :
    split_text_into_tweets "   \r\n  ".data 3 = some (.ok []) :=
  claim_C9 "   \r\n  ".data 3 rfl

/-- C5 counterexample: the input `("aaaa", max_len = 4)` is a non-empty
text with `max_len ≠ 3`, so under the claim it should "succeed without
raising"; the code raises the configuration error instead (the
1-digit reserve is 4, so `body_limit = 0` already at `max_len = 4`). -/
theorem claim_C5_counterexample :
    "aaaa".data ≠ [] ∧ (4 : Int) ≠ 3 ∧
      split_text_into_tweets "aaaa".data 4 = some (.error ()) := by
  refine ⟨by decide, by decide, ?_⟩
  rfl

/-- C5 (amended): `split_text_into_tweets` raises exactly one error
kind — the configuration error — and returns it precisely when some
iteration of the estimation loop computes
`body_limit = max_len - suffix_length n_est ≤ 0` on the non-empty
normalized text; in particular any non-empty text raises for every
`max_len ≤ 4` (the 1-digit reserve is 4), and inputs whose loop never
hits the check do not raise. -/
theorem claim_C5_amended :
    (∀ (text : List Char) (M : Int),
        split_text_into_tweets text M = some (.error ()) ↔
          (pystrip (normalizeNewlines text) ≠ [] ∧
            hitsConfigError (pystrip (normalizeNewlines text)) M)) ∧
    (∀ (text : List Char) (M : Int), pystrip (normalizeNewlines text) ≠ [] →
        M ≤ 4 → split_text_into_tweets text M = some (.error ())) := by
  constructor
  · exact split_error_iff
  · intro text M hne hM
    rw [split_error_iff]
    refine ⟨hne, 9, 9, -1, Reach.init, ?_⟩
    have h9 : suffix_length 9 = 4 := rfl
    rw [h9]
    omega

theorem claim_C5_amended_witness :
    split_text_into_tweets "abc".data 3 = some (.error ()) :=
  claim_C5_amended.2 "abc".data 3 (by decide) (by decide)

/-! ## Symbolic evaluation on whitespace-free texts (towards C8) -/

theorem mem_pyslice {t : List Char} {a b : Nat} {c : Char}
    (h : c ∈ pyslice t a b) : c ∈ t := by
  unfold pyslice at h
  exact (List.drop_sublist a t).subset ((List.take_sublist _ _).subset h)

theorem dropWhile_isspace_of_forall {l : List Char}
    (h : ∀ c ∈ l, isspace c = false) : l.dropWhile isspace = l := by
  cases l with
  | nil => rfl
  | cons c cs =>
    rw [List.dropWhile_cons,
      if_neg (by simp [h c (List.mem_cons_self c cs)])]

theorem pystrip_of_forall {l : List Char}
    (h : ∀ c ∈ l, isspace c = false) : pystrip l = l := by
  unfold pystrip
  rw [dropWhile_isspace_of_forall h,
    dropWhile_isspace_of_forall (fun c hc => h c (List.mem_reverse.mp hc)),
    List.reverse_reverse]

theorem windowEnd_of_forall {t : List Char} {limit i : Nat}
    (h : ∀ c ∈ t, isspace c = false) :
    windowEnd t limit i = min (i + limit) t.length := by
  unfold windowEnd
  rw [lastWs_eq_none (fun c hc => h c (mem_pyslice hc))]
  split <;> rfl

theorem skipWs_of_forall {t : List Char}
    (h : ∀ c ∈ t, isspace c = false) (i : Nat) : skipWs t i = i := by
  unfold skipWs
  cases hd : t.drop i with
  | nil => simp [hd]
  | cons c cs =>
    have hc : c ∈ t := by
      have h2 : c ∈ t.drop i := by
        rw [hd]
        exact List.mem_cons_self c cs
      exact (List.drop_sublist i t).subset h2
    simp [hd, List.takeWhile_cons, h c hc]

theorem replaceCRLF_of_no_cr {l : List Char} (h : ∀ c ∈ l, c ≠ '\r') :
    replaceCRLF l = l := by
  induction l using replaceCRLF.induct with
  | case1 rest ih => exact absurd rfl (h '\r' (List.mem_cons_self _ _))
  | case2 c rest hne ih =>
    simp only [replaceCRLF]
    rw [ih (fun d hd => h d (List.mem_cons_of_mem _ hd))]
  | case3 => rfl

theorem normalize_of_forall {t : List Char}
    (h : ∀ c ∈ t, isspace c = false) : normalizeNewlines t = t := by
  unfold normalizeNewlines
  have hcr : ∀ c ∈ t, c ≠ '\r' := by
    intro c hc hr
    subst hr
    have := h _ hc
    simp [isspace] at this
  rw [replaceCRLF_of_no_cr hcr]
  have hmap : ∀ c ∈ t, (if c = '\r' then '\n' else c) = c := by
    intro c hc
    rw [if_neg (hcr c hc)]
  induction t with
  | nil => rfl
  | cons c cs ih =>
    rw [List.map_cons, hmap c (List.mem_cons_self c cs),
      ih (fun d hd => h d (List.mem_cons_of_mem _ hd))
        (fun d hd hr => hcr d (List.mem_cons_of_mem _ hd) hr)
        (fun d hd => hmap d (List.mem_cons_of_mem _ hd))]

theorem greedyLoop_step {t : List Char} {limit : Nat} (fuel i : Nat)
    (chunks : List (List Char)) (hi : i < t.length) (hl : 0 < limit)
    (hbrk : ¬(skipWs t (windowEnd t limit i) = windowEnd t limit i ∧
      windowEnd t limit i = t.length ∧
      (pystrip (pyslice t i (windowEnd t limit i))).isEmpty = true)) :
    greedyLoop t limit (fuel + 1) i chunks =
      greedyLoop t limit fuel (skipWs t (windowEnd t limit i))
        (if (pystrip (pyslice t i (windowEnd t limit i))).isEmpty
          then chunks
          else chunks ++ [pystrip (pyslice t i (windowEnd t limit i))]) := by
  simp only [greedyLoop]
  rw [if_pos hi, if_neg hbrk, greedy_guard_eq hl (le_skipWs t _)]

theorem greedyLoop_done {t : List Char} {limit : Nat} (fuel i : Nat)
    (chunks : List (List Char)) (hi : ¬ i < t.length) :
    greedyLoop t limit (fuel + 1) i chunks = some chunks := by
  simp only [greedyLoop]
  rw [if_neg hi]

/-- The greedy pass on a 300-character whitespace-free text at body
limit 276: one full 276-character hard window, then the 24-character
remainder. -/
theorem greedy_run300 {t : List Char} (hw : ∀ c ∈ t, isspace c = false)
    (hlen : t.length = 300) :
    greedy_split_within_limit t 276 = some [t.take 276, t.drop 276] := by
  have hsl1 : pyslice t 0 276 = t.take 276 := by simp [pyslice]
  have hcl1 : pystrip (pyslice t 0 276) = t.take 276 := by
    rw [hsl1,
      pystrip_of_forall (fun c hc => hw c ((List.take_sublist _ _).subset hc))]
  have hsl2 : pyslice t 276 300 = t.drop 276 := by
    unfold pyslice
    rw [List.take_of_length_le (by simp [hlen])]
  have hcl2 : pystrip (pyslice t 276 300) = t.drop 276 := by
    rw [hsl2,
      pystrip_of_forall (fun c hc => hw c ((List.drop_sublist _ _).subset hc))]
  have he1 : windowEnd t 276 0 = 276 := by
    rw [windowEnd_of_forall hw, hlen]
    omega
  have he2 : windowEnd t 276 276 = 300 := by
    rw [windowEnd_of_forall hw, hlen]
    omega
  have hne1 : ¬ ((t.take 276).isEmpty = true) := by
    rw [List.isEmpty_iff]
    intro h2
    have h3 := congrArg List.length h2
    simp [hlen] at h3
  have hne2 : ¬ ((t.drop 276).isEmpty = true) := by
    rw [List.isEmpty_iff]
    intro h2
    have h3 := congrArg List.length h2
    simp [hlen] at h3
  unfold greedy_split_within_limit
  rw [hlen]
  show greedyLoop t 276 (300 + 1) 0 [] = some [t.take 276, t.drop 276]
  rw [greedyLoop_step 300 0 [] (by omega) (by omega)
      (by
        rw [he1, hlen, skipWs_of_forall hw]
        rintro ⟨-, h2, -⟩
        omega)]
  rw [he1, hcl1, skipWs_of_forall hw, if_neg hne1, List.nil_append]
  show greedyLoop t 276 (299 + 1) 276 [t.take 276]
      = some [t.take 276, t.drop 276]
  rw [greedyLoop_step 299 276 [t.take 276] (by omega) (by omega)
      (by
        rw [he2, hcl2, skipWs_of_forall hw]
        rintro ⟨-, -, h3⟩
        exact hne2 h3)]
  rw [he2, hcl2, skipWs_of_forall hw, if_neg hne2]
  show greedyLoop t 276 (298 + 1) 300 [t.take 276, t.drop 276]
      = some [t.take 276, t.drop 276]
  rw [greedyLoop_done 298 300 _ (by omega)]

theorem assemble_two (b1 b2 : List Char) :
    assemble [b1, b2]
      = [b1 ++ [' ', '1', '/', '2'], b2 ++ [' ', '2', '/', '2']] := by
  simp [assemble, List.range_succ]
  exact ⟨rfl, rfl⟩

/-- C8: on any single unbroken run of 300 non-whitespace characters at
`max_len = 280` (reserve 4 for a 1-digit count, body limit 276), the
result is exactly two tweets: the first 276 characters suffixed with
`" 1/2"` and the remaining 24 characters suffixed with `" 2/2"`. -/
theorem claim_C8 (t : List Char) (hlen : t.length = 300)
    (hw : ∀ c ∈ t, isspace c = false) :
    split_text_into_tweets t 280 =
      some (.ok [t.take 276 ++ [' ', '1', '/', '2'],
        t.drop 276 ++ [' ', '2', '/', '2']]) := by
  have ht : pystrip (normalizeNewlines t) = t := by
    rw [normalize_of_forall hw, pystrip_of_forall hw]
  have hemp : ¬ (pystrip (normalizeNewlines t)).isEmpty = true := by
    rw [ht, List.isEmpty_iff]
    intro h2
    have h3 := congrArg List.length h2
    rw [hlen] at h3
    simp at h3
  have hb : bodiesAt t 276 = some [t.take 276, t.drop 276] := by
    rw [bodiesAt_eq_greedy (by omega)]
    exact greedy_run300 hw hlen
  have hbl9 : ¬ ((280 : Int) - (suffix_length 9 : Int) ≤ 0) := by decide
  have hb9 : bodiesAt t ((280 : Int) - (suffix_length 9 : Int)).toNat
      = some [t.take 276, t.drop 276] := by
    show bodiesAt t 276 = _
    exact hb
  have hbl2 : ¬ ((280 : Int) - (suffix_length 2 : Int) ≤ 0) := by decide
  have hb2 : bodiesAt t ((280 : Int) - (suffix_length 2 : Int)).toNat
      = some [t.take 276, t.drop 276] := by
    show bodiesAt t 276 = _
    exact hb
  have hlen2 : ((([t.take 276, t.drop 276] : List (List Char)).length : Int))
      = 2 := rfl
  have hsl : splitLoop (pystrip (normalizeNewlines t)) 280 10 9 (-1)
      = some (.ok 2) := by
    rw [ht]
    show splitLoop t 280 (9 + 1) 9 (-1) = some (.ok 2)
    rw [splitLoop_succ_some hbl9 hb9, if_neg (by rw [hlen2]; decide)]
    show splitLoop t 280 (8 + 1) 2 (2 : Int) = some (.ok 2)
    rw [splitLoop_succ_some hbl2 hb2, if_pos hlen2]
  rw [split_eq_of_ok hemp hsl, ht]
  have hbf : bodiesAt t
      ((280 : Int) - (suffix_length (max 1 (2 : Int)).toNat : Int)).toNat
      = some [t.take 276, t.drop 276] := by
    show bodiesAt t 276 = _
    exact hb
  rw [hbf]
  show some (Except.ok (assemble [t.take 276, t.drop 276])) = _
  rw [assemble_two]

theorem claim_C8_witness :
    split_text_into_tweets (List.replicate 300 'a') 280 =
      some (.ok [(List.replicate 300 'a').take 276 ++ [' ', '1', '/', '2'],
        (List.replicate 300 'a').drop 276 ++ [' ', '2', '/', '2']]) :=
  claim_C8 (List.replicate 300 'a') (by rw [List.length_replicate])
    (fun c hc => by
      rw [List.eq_of_mem_replicate hc]
      decide)

/-! ## The length accounting behind the `max_len` bound

Every assembled tweet is a final body (of length at most the final
body limit, which reserves `2 + 2 * digits n_pre` characters for the
pre-final count `n_pre`) followed by `" i/N"`, where `N` is the actual
final count.  Whenever `N` stays within the digit width of `n_pre` —
in particular on every convergence exit of the estimation loop, where
`N = n_pre` — every tweet fits within `max_len`.  (The unconstrained
bound would additionally require that a 10-round exhaustion exit
cannot cross one more digit boundary in the authoritative pass.) -/

theorem mem_assemble {fb : List (List Char)} {s : List Char}
    (h : s ∈ assemble fb) :
    ∃ i, i < fb.length ∧
      s = fb.getD i [] ++ ' ' :: natStr (i + 1) ++ '/' :: natStr fb.length := by
  unfold assemble at h
  obtain ⟨i, hi, rfl⟩ := List.mem_map.mp h
  exact ⟨i, List.mem_range.mp hi, rfl⟩

theorem getD_mem {fb : List (List Char)} {i : Nat} (h : i < fb.length) :
    fb.getD i [] ∈ fb := by
  rw [List.getD_eq_getElem?_getD, List.getElem?_eq_getElem h]
  exact List.getElem_mem h

theorem tweet_length_bound {M : Int} {npre : Nat} {fb : List (List Char)}
    (hbl : ¬ (M - (suffix_length npre : Int) ≤ 0))
    (hlen : ∀ b ∈ fb, b.length ≤ (M - (suffix_length npre : Int)).toNat)
    (hd : digits fb.length ≤ digits npre) :
    ∀ s ∈ assemble fb, (s.length : Int) ≤ M := by
  intro s hs
  obtain ⟨i, hi, rfl⟩ := mem_assemble hs
  have hb := hlen _ (getD_mem hi)
  have hdi : digits (i + 1) ≤ digits fb.length := digits_mono _ _ (by omega)
  have hsl : (fb.getD i [] ++ ' ' :: natStr (i + 1)
        ++ '/' :: natStr fb.length).length
      = (fb.getD i []).length + 1 + digits (i + 1) + 1 + digits fb.length := by
    simp [digits]
    omega
  have hsfx : suffix_length npre = 2 + 2 * digits npre := suffix_length_eq npre
  rw [hsl]
  push_cast
  omega

theorem split_ok_structure {text : List Char} {M : Int}
    {ts : List (List Char)}
    (h : split_text_into_tweets text M = some (.ok ts)) :
    ts = [] ∨
      (pystrip (normalizeNewlines text) ≠ [] ∧
        ∃ prev fb,
          splitLoop (pystrip (normalizeNewlines text)) M 10 9 (-1)
            = some (.ok prev) ∧
          bodiesAt (pystrip (normalizeNewlines text))
            (M - (suffix_length (max 1 prev).toNat : Int)).toNat = some fb ∧
          ts = assemble fb) := by
  by_cases hemp : (pystrip (normalizeNewlines text)).isEmpty
  · left
    rw [split_eq_of_empty (List.isEmpty_iff.mp hemp)] at h
    exact (by simpa using h : ([] : List (List Char)) = ts).symm
  · right
    refine ⟨fun h2 => hemp (List.isEmpty_iff.mpr h2), ?_⟩
    cases hsl : splitLoop (pystrip (normalizeNewlines text)) M 10 9 (-1) with
    | none =>
      rw [split_eq_of_none hemp hsl] at h
      simp at h
    | some r =>
      cases r with
      | error e =>
        rw [split_eq_of_err hemp hsl] at h
        simp at h
      | ok prev =>
        rw [split_eq_of_ok hemp hsl] at h
        cases hb : bodiesAt (pystrip (normalizeNewlines text))
            (M - (suffix_length (max 1 prev).toNat : Int)).toNat with
        | none =>
          rw [hb] at h
          simp at h
        | some fb =>
          rw [hb] at h
          exact ⟨prev, fb, rfl, hb, (by simpa using h : assemble fb = ts).symm⟩

/-- Conditional form of the C1 length bound: on every successful run
whose final chunk count stays within the digit width of the pre-final
estimate (in particular on every convergence exit of the estimation
loop, where the two counts are equal), all returned tweets fit within
`max_len`. -/
theorem split_ok_length_bound (text : List Char) (M : Int)
    (ts : List (List Char))
    (h : split_text_into_tweets text M = some (.ok ts))
    (hstable : ∀ prev fb,
      splitLoop (pystrip (normalizeNewlines text)) M 10 9 (-1)
        = some (.ok prev) →
      bodiesAt (pystrip (normalizeNewlines text))
        (M - (suffix_length (max 1 prev).toNat : Int)).toNat = some fb →
      digits fb.length ≤ digits (max 1 prev).toNat) :
    ∀ s ∈ ts, (s.length : Int) ≤ M := by
  rcases split_ok_structure h with rfl | ⟨hne, prev, fb, hsl, hb, rfl⟩
  · intro s hs
    simp at hs
  · by_cases hbl :
        M - (suffix_length (max 1 prev).toNat : Int) ≤ 0
    · exfalso
      obtain ⟨c, rest, ht⟩ : ∃ c rest,
          pystrip (normalizeNewlines text) = c :: rest := by
        cases hx : pystrip (normalizeNewlines text) with
        | nil => exact absurd hx hne
        | cons c rest => exact ⟨c, rest, rfl⟩
      have h0 : (M - (suffix_length (max 1 prev).toNat : Int)).toNat = 0 := by
        omega
      rw [h0, bodiesAt_zero_none ht (pystrip_head_not_isspace ht)] at hb
      simp at hb
    · have hpos : 0 < (M - (suffix_length (max 1 prev).toNat : Int)).toNat := by
        omega
      have hb2 := hb
      rw [bodiesAt_eq_greedy hpos] at hb2
      exact tweet_length_bound hbl
        (fun b hbm => (greedy_chunk_facts hpos hb2 b hbm).1)
        (hstable prev fb hsl hb)

end TweetyPy
